import Mathlib

/-!
Verification of the concurrency assignment's thread pool and parallel merge
sort (`src/assignments/05-concurrency`): a shallow embedding of the Rust
source in Lean 4, with theorems settling the specification's claims.

Modelling conventions:
* `i64` elements are `Int` (the sort/merge code performs no arithmetic, so
  no overflow wrapping is involved).
* Rust panics (`unwrap` on `Err`, `slice::chunks` with chunk size zero,
  `ThreadPool::new(0).unwrap()`) are `Option.none` in functions that can
  reach them.
* The thread pool's channels are modelled as explicit queues/buffers; a
  worker's processing of the job stream and the driver's blocking receive
  loop are modelled as functions over those queues.  Arrival order of
  results is modelled as submission order; the proved properties
  (sortedness, permutation, length/count invariants) are insensitive to
  the arrival order of the racing workers.
-/

namespace Concurrency

/-- Embedding of `merge` (`main.rs`): merge two sorted slices into a new
sorted vector.  The Rust loop peeks both iterators while both are
non-empty, takes the left element on `<=`, and finally extends with the
leftovers of whichever side remains. -/
def merge : List Int → List Int → List Int
  | [], r => r
  | a :: l, [] => a :: l
  | a :: l, b :: r =>
    if a ≤ b then a :: merge l (b :: r) else b :: merge (a :: l) r
termination_by l r => l.length + r.length

/-- Embedding of `merge_sort` (`main.rs`): return slices of length ≤ 1
unchanged, otherwise split at `len / 2`, sort both halves recursively and
copy the merge of the two sorted halves back. -/
def merge_sort (arr : List Int) : List Int :=
  if arr.length ≤ 1 then arr
  else
    merge (merge_sort (arr.take (arr.length / 2)))
          (merge_sort (arr.drop (arr.length / 2)))
termination_by arr.length
decreasing_by
  · simp only [List.length_take]
    omega
  · simp only [List.length_drop]
    omega

/-- Embedding of `data.chunks(chunk_size).map(|c| c.to_vec())`: split a
slice into consecutive chunks of `n` elements, the last chunk possibly
shorter.  Rust's `chunks` panics when `n = 0`; callers of this model guard
that case themselves (`parallel_merge_sort` returns `none` there), so the
`0` branch here is arbitrary. -/
def chunksOf : Nat → List Int → List (List Int)
  | _, [] => []
  | 0, _ :: _ => []
  | n + 1, x :: xs =>
    (x :: xs).take (n + 1) :: chunksOf (n + 1) ((x :: xs).drop (n + 1))
termination_by _ l => l.length
decreasing_by
  simp only [List.drop_succ_cons, List.length_drop, List.length_cons]
  omega

/-- One submission pass of the driver's merge phase: the first two chunks
of the list are merged, then the next two, and so on (`remove(0)` twice
per pair, `num_pairs = len / 2` times).  A trailing odd chunk, had one
been left in place, would not be touched (`num_pairs` rounds down). -/
def pairMerge : List (List Int) → List (List Int)
  | [] => []
  | [_] => []
  | a :: b :: t => merge a b :: pairMerge t

/-- One round of the driver's merge loop: when the chunk count is odd the
*last* chunk is popped and carried over unchanged (it ends up first in the
next round's list), then the remaining even number of chunks are merged
pairwise front to back and appended in order. -/
def mergeRound (cs : List (List Int)) : List (List Int) :=
  if cs.length % 2 = 0 then pairMerge cs
  else cs.getLastD [] :: pairMerge cs.dropLast

/-- Length of `pairMerge`: half the input count, rounded down. -/
theorem pairMerge_length (cs : List (List Int)) :
    (pairMerge cs).length = cs.length / 2 := by
  match cs with
  | [] => simp [pairMerge]
  | [a] => simp [pairMerge]
  | a :: b :: t =>
    simp only [pairMerge, List.length_cons, pairMerge_length t]
    omega
termination_by cs.length

/-- Length of one merge round: the ceiling of half the chunk count. -/
theorem mergeRound_length (cs : List (List Int)) :
    (mergeRound cs).length = cs.length / 2 + cs.length % 2 := by
  unfold mergeRound
  split
  · rename_i h
    rw [pairMerge_length]
    omega
  · rename_i h
    simp only [List.length_cons, pairMerge_length, List.length_dropLast]
    omega

/-- The driver's merge loop (`while sorted_chunks.len() > 1`): repeat
`mergeRound` until at most one chunk remains. -/
def mergeRounds (cs : List (List Int)) : List (List Int) :=
  if _h : 1 < cs.length then mergeRounds (mergeRound cs) else cs
termination_by cs.length
decreasing_by
  rw [mergeRound_length]
  omega

/-- Embedding of `parallel_merge_sort` (`main.rs`).  `none` models a panic:
`ThreadPool::new(0).unwrap()` panics, and `data.chunks(0)` panics.
Otherwise the input is chunked, each chunk sorted (one job per chunk),
and the sorted chunks merged pairwise round by round; the final
`pop().unwrap_or_default()` takes the last remaining chunk or the empty
vector. -/
def parallel_merge_sort (data : List Int) (chunk_size num_threads : Nat) :
    Option (List Int) :=
  if num_threads = 0 then none
  else if chunk_size = 0 then none
  else some ((mergeRounds ((chunksOf chunk_size data).map merge_sort)).getLastD [])

/-! ### Correctness lemmas for the sequential primitives -/

/-- `merge` returns a permutation of the concatenation of its inputs. -/
theorem merge_perm (l r : List Int) : (merge l r).Perm (l ++ r) := by
  match l, r with
  | [], r => simp [merge]
  | a :: l, [] => simp [merge]
  | a :: l, b :: r =>
    simp only [merge]
    split
    · exact (merge_perm l (b :: r)).cons a
    · exact ((merge_perm (a :: l) r).cons b).trans List.perm_middle.symm
termination_by l.length + r.length

/-- `merge` preserves sortedness. -/
theorem merge_sorted (l r : List Int) (hl : l.Sorted (· ≤ ·))
    (hr : r.Sorted (· ≤ ·)) : (merge l r).Sorted (· ≤ ·) := by
  match l, r with
  | [], r => simpa [merge] using hr
  | a :: l, [] => simpa [merge] using hl
  | a :: l, b :: r =>
    have hl1 : ∀ x ∈ l, a ≤ x := (List.sorted_cons.mp hl).1
    have hl2 : l.Sorted (· ≤ ·) := (List.sorted_cons.mp hl).2
    have hr1 : ∀ x ∈ r, b ≤ x := (List.sorted_cons.mp hr).1
    have hr2 : r.Sorted (· ≤ ·) := (List.sorted_cons.mp hr).2
    simp only [merge]
    split
    · rename_i hab
      rw [List.sorted_cons]
      refine ⟨?_, merge_sorted l (b :: r) hl2 hr⟩
      intro x hx
      rcases List.mem_append.mp ((merge_perm l (b :: r)).mem_iff.mp hx) with h1 | h2
      · exact hl1 x h1
      · rcases List.mem_cons.mp h2 with rfl | h3
        · exact hab
        · exact le_trans hab (hr1 x h3)
    · rename_i hab
      push_neg at hab
      rw [List.sorted_cons]
      refine ⟨?_, merge_sorted (a :: l) r hl hr2⟩
      intro x hx
      rcases List.mem_append.mp ((merge_perm (a :: l) r).mem_iff.mp hx) with h1 | h2
      · rcases List.mem_cons.mp h1 with rfl | h3
        · exact le_of_lt hab
        · exact le_trans (le_of_lt hab) (hl1 x h3)
      · exact hr1 x h2
termination_by l.length + r.length

/-- `merge_sort` returns a permutation of its input. -/
theorem merge_sort_perm (arr : List Int) : (merge_sort arr).Perm arr := by
  rw [merge_sort]
  split
  · exact List.Perm.refl _
  · rename_i h
    refine (merge_perm _ _).trans ?_
    refine ((merge_sort_perm (arr.take (arr.length / 2))).append
      (merge_sort_perm (arr.drop (arr.length / 2)))).trans ?_
    rw [List.take_append_drop]
termination_by arr.length
decreasing_by
  · simp only [List.length_take]
    omega
  · simp only [List.length_drop]
    omega

/-- `merge_sort` returns a sorted list. -/
theorem merge_sort_sorted (arr : List Int) : (merge_sort arr).Sorted (· ≤ ·) := by
  rw [merge_sort]
  split
  · rename_i h
    match arr, h with
    | [], _ => simp
    | [a], _ => simp
  · exact merge_sorted _ _ (merge_sort_sorted (arr.take (arr.length / 2)))
      (merge_sort_sorted (arr.drop (arr.length / 2)))
termination_by arr.length
decreasing_by
  · rename_i h
    simp only [List.length_take]
    omega
  · rename_i h
    simp only [List.length_drop]
    omega

/-- Chunking the empty list yields no chunks, for every chunk size. -/
theorem chunksOf_nil (n : Nat) : chunksOf n [] = [] := by
  cases n <;> simp [chunksOf]

/-- For positive chunk size, concatenating the chunks recovers the input. -/
theorem chunksOf_join (n : Nat) (hn : 0 < n) (l : List Int) :
    (chunksOf n l).flatten = l := by
  match n, l with
  | n, [] => rw [chunksOf_nil]; rfl
  | 0, x :: xs => exact absurd hn (lt_irrefl 0)
  | n + 1, x :: xs =>
    rw [chunksOf, List.flatten_cons, chunksOf_join (n + 1) hn ((x :: xs).drop (n + 1)),
      List.take_append_drop]
termination_by l.length
decreasing_by
  simp only [List.drop_succ_cons, List.length_drop, List.length_cons]
  omega

/-- Chunking a non-empty list with positive chunk size yields at least one
chunk. -/
theorem chunksOf_ne_nil (n : Nat) (hn : 0 < n) (l : List Int) (hl : l ≠ []) :
    chunksOf n l ≠ [] := by
  match n, l with
  | n, [] => exact absurd rfl hl
  | 0, x :: xs => exact absurd hn (lt_irrefl 0)
  | n + 1, x :: xs => rw [chunksOf]; exact List.cons_ne_nil _ _

/-! ### Correctness of the driver's merge rounds -/

/-- On an even-length chunk list, pairwise merging preserves the multiset
of all elements. -/
theorem pairMerge_flatten_perm (cs : List (List Int)) (h : cs.length % 2 = 0) :
    (pairMerge cs).flatten.Perm cs.flatten := by
  match cs with
  | [] => simp [pairMerge]
  | [a] => simp at h
  | a :: b :: t =>
    have ht : t.length % 2 = 0 := by
      simp only [List.length_cons] at h
      omega
    simp only [pairMerge, List.flatten_cons]
    refine ((merge_perm a b).append (pairMerge_flatten_perm t ht)).trans ?_
    rw [List.append_assoc]
termination_by cs.length

/-- Pairwise merging of sorted chunks yields sorted chunks. -/
theorem pairMerge_sorted (cs : List (List Int))
    (h : ∀ c ∈ cs, c.Sorted (· ≤ ·)) :
    ∀ c ∈ pairMerge cs, c.Sorted (· ≤ ·) := by
  match cs with
  | [] => simp [pairMerge]
  | [a] => simp [pairMerge]
  | a :: b :: t =>
    intro c hc
    simp only [pairMerge, List.mem_cons] at hc
    rcases hc with rfl | hc
    · exact merge_sorted a b (h a (by simp)) (h b (by simp))
    · exact pairMerge_sorted t (fun x hx => h x (by simp [hx])) c hc
termination_by cs.length

/-- A non-empty list is its `dropLast` followed by its last element
(`getLastD` form). -/
theorem dropLast_append_getLastD (cs : List (List Int)) (h : cs ≠ []) :
    cs.dropLast ++ [cs.getLastD []] = cs := by
  rw [List.getLastD_eq_getLast?, List.getLast?_eq_getLast cs h, Option.getD_some]
  exact List.dropLast_append_getLast h

/-- One merge round preserves the multiset of all elements. -/
theorem mergeRound_flatten_perm (cs : List (List Int)) :
    (mergeRound cs).flatten.Perm cs.flatten := by
  unfold mergeRound
  split
  · rename_i h
    exact pairMerge_flatten_perm cs h
  · rename_i h
    have hne : cs ≠ [] := by
      intro e
      subst e
      simp at h
    have heven : cs.dropLast.length % 2 = 0 := by
      have hd := cs.length_dropLast
      have : cs.length % 2 = 1 := Nat.mod_two_ne_zero.mp h
      omega
    rw [List.flatten_cons]
    refine (List.Perm.append_left _ (pairMerge_flatten_perm _ heven)).trans ?_
    refine List.perm_append_comm.trans ?_
    have hflat : cs.dropLast.flatten ++ cs.getLastD [] = cs.flatten := by
      conv_rhs => rw [← dropLast_append_getLastD cs hne]
      rw [List.flatten_append, List.flatten_cons, List.flatten_nil, List.append_nil]
    rw [hflat]

/-- One merge round maps sorted chunks to sorted chunks. -/
theorem mergeRound_sorted (cs : List (List Int))
    (h : ∀ c ∈ cs, c.Sorted (· ≤ ·)) :
    ∀ c ∈ mergeRound cs, c.Sorted (· ≤ ·) := by
  unfold mergeRound
  split
  · exact pairMerge_sorted cs h
  · rename_i hodd
    have hne : cs ≠ [] := by
      intro e
      subst e
      simp at hodd
    intro c hc
    rcases List.mem_cons.mp hc with rfl | hc
    · refine h _ ?_
      rw [List.getLastD_eq_getLast?, List.getLast?_eq_getLast cs hne, Option.getD_some]
      exact List.getLast_mem hne
    · exact pairMerge_sorted cs.dropLast
        (fun x hx => h x (List.dropLast_subset cs hx)) c hc

/-- The driver's merge loop: preserves the multiset of elements, preserves
sortedness of the chunks, and ends with at most one chunk — exactly one
when it started with at least one. -/
theorem mergeRounds_spec (cs : List (List Int))
    (h : ∀ c ∈ cs, c.Sorted (· ≤ ·)) :
    (mergeRounds cs).flatten.Perm cs.flatten
    ∧ (∀ c ∈ mergeRounds cs, c.Sorted (· ≤ ·))
    ∧ (mergeRounds cs).length ≤ 1
    ∧ (cs ≠ [] → (mergeRounds cs).length = 1) := by
  rw [mergeRounds]
  split
  · rename_i hlen
    obtain ⟨p, s, le1, eq1⟩ := mergeRounds_spec (mergeRound cs) (mergeRound_sorted cs h)
    have hne2 : mergeRound cs ≠ [] := by
      intro e
      have hl := mergeRound_length cs
      rw [e] at hl
      simp only [List.length_nil] at hl
      omega
    exact ⟨p.trans (mergeRound_flatten_perm cs), s, le1, fun _ => eq1 hne2⟩
  · rename_i hlen
    refine ⟨List.Perm.refl _, h, by omega, fun hne => ?_⟩
    have h0 : cs.length ≠ 0 := by
      simpa [List.length_eq_zero] using hne
    omega
termination_by cs.length
decreasing_by
  rw [mergeRound_length]
  omega

/-- Sorting each chunk individually preserves the multiset of all
elements. -/
theorem chunks_map_sort_flatten_perm (chunks : List (List Int)) :
    ((chunks.map merge_sort).flatten).Perm chunks.flatten := by
  induction chunks with
  | nil => simp
  | cons c t ih =>
    simp only [List.map_cons, List.flatten_cons]
    exact (merge_sort_perm c).append ih

/-- Full functional correctness of the parallel sort pipeline: for positive
chunk size and worker count it returns (without panicking) a sorted
permutation of its input. -/
theorem parallel_merge_sort_spec (data : List Int) (c t : Nat)
    (hc : 0 < c) (ht : 0 < t) :
    ∃ out, parallel_merge_sort data c t = some out
      ∧ out.Sorted (· ≤ ·) ∧ out.Perm data := by
  unfold parallel_merge_sort
  rw [if_neg (by omega), if_neg (by omega)]
  have hsorted : ∀ x ∈ (chunksOf c data).map merge_sort, x.Sorted (· ≤ ·) := by
    intro x hx
    obtain ⟨y, _, rfl⟩ := List.mem_map.mp hx
    exact merge_sort_sorted y
  obtain ⟨p, s, le1, eq1⟩ := mergeRounds_spec ((chunksOf c data).map merge_sort) hsorted
  by_cases hd : data = []
  · subst hd
    rw [chunksOf_nil, List.map_nil, mergeRounds]
    exact ⟨[], rfl, by simp, by simp⟩
  · have hne : (chunksOf c data).map merge_sort ≠ [] := by
      simpa using chunksOf_ne_nil c hc data hd
    obtain ⟨out0, hout0⟩ := List.length_eq_one.mp (eq1 hne)
    rw [hout0] at p s ⊢
    have hgl : ([out0].getLastD []) = out0 := rfl
    rw [hgl]
    refine ⟨out0, rfl, s out0 (by simp), ?_⟩
    have p2 : out0.Perm ((chunksOf c data).map merge_sort).flatten := by
      have : [out0].flatten = out0 := by
        rw [List.flatten_cons, List.flatten_nil, List.append_nil]
      rwa [this] at p
    refine (p2.trans (chunks_map_sort_flatten_perm (chunksOf c data))).trans ?_
    rw [chunksOf_join c hc data]

/-! ### The thread pool (`thread_pool.rs`, `error.rs`) -/

/-- Embedding of `ThreadPoolError` (`error.rs`). -/
inductive ThreadPoolError where
  | ZeroThreads : ThreadPoolError
  | SendError : ThreadPoolError
  | PoisonError : String → ThreadPoolError
  | ThreadPanic : String → ThreadPoolError
  | ReceiveError : String → ThreadPoolError
deriving DecidableEq

/-- A panic payload as it reaches the worker's `catch_unwind` handler: a
`&str` literal, an owned `String`, or a payload of any other type. -/
inductive PanicPayload where
  | strRef : String → PanicPayload
  | strOwned : String → PanicPayload
  | other : PanicPayload
deriving DecidableEq

/-- Embedding of the worker's panic-payload conversion (`thread_pool.rs`,
worker loop): `downcast_ref::<&str>` yields the string itself,
`downcast_ref::<String>` yields a clone, anything else yields the literal
`"Unknown panic"`. -/
def panic_info : PanicPayload → String
  | .strRef s => s
  | .strOwned s => s
  | .other => "Unknown panic"

/-- The observable behaviour of running one `Job` closure to completion:
it either returns a value or unwinds with a panic payload. -/
inductive JobRun (α : Type) where
  | ok : α → JobRun α
  | panicked : PanicPayload → JobRun α
deriving DecidableEq

/-- Embedding of the worker's handling of one dequeued job: the job runs
under `catch_unwind`; a normal return is sent as `Ok(val)`, a panic is
captured and sent as `Err(ThreadPanic(message))` with the converted
payload.  Exactly one outcome is produced either way. -/
def runJob {α : Type} (j : JobRun α) : Except ThreadPoolError α :=
  match j with
  | .ok v => .ok v
  | .panicked p => .error (.ThreadPanic (panic_info p))

/-- The worker loop over the stream of jobs it dequeues before the queue
closes: the loop body sends one outcome per job and only a closed queue
(`recv` returning `Err`) breaks the loop, so a panicking job does not
terminate the thread and every subsequent job is still executed. -/
def workerRun {α : Type} (jobs : List (JobRun α)) :
    List (Except ThreadPoolError α) :=
  jobs.map runJob

/-- Model of the `ThreadPool` struct: the sending half of the task queue
(`Option`, taken on shutdown), whether the receiving half is still
connected (workers alive holding it), the jobs currently in the task
queue, the outcomes currently buffered in the result channel, and the
worker thread handles (one id per spawned worker). -/
structure ThreadPool (α : Type) where
  job_sender : Option Unit
  receiver_connected : Bool
  job_queue : List (JobRun α)
  result_buffer : List (Except ThreadPoolError α)
  threads : List Nat

/-- Embedding of `ThreadPool::new` (`thread_pool.rs`): reject
`num_threads = 0` with `ZeroThreads` before spawning anything; otherwise
build the channels and spawn one worker per id in `0..num_threads`. -/
def ThreadPool.new (α : Type) (num_threads : Nat) :
    Except ThreadPoolError (ThreadPool α) :=
  if num_threads = 0 then .error .ZeroThreads
  else .ok { job_sender := some ()
             receiver_connected := true
             job_queue := []
             result_buffer := []
             threads := List.range num_threads }

/-- Embedding of `ThreadPool::execute`: if `job_sender` is `Some`, try to
send the boxed closure — which fails exactly when the receiving half is
gone, mapped to `SendError`; if `job_sender` is `None`, return `SendError`
directly.  On success exactly one job is appended to the task queue. -/
def ThreadPool.execute {α : Type} (p : ThreadPool α) (f : JobRun α) :
    Except ThreadPoolError (ThreadPool α) :=
  match p.job_sender with
  | some _ =>
    if p.receiver_connected then
      .ok { p with job_queue := p.job_queue ++ [f] }
    else .error .SendError
  | none => .error .SendError

/-- Embedding of `ThreadPool::get_results`: iterate the result channel's
`try_iter` (the currently buffered outcomes, in arrival order, without
blocking), pushing successes; the first buffered failure is returned
immediately, abandoning the successes pushed so far and leaving the rest
of the buffer undrained. -/
def get_results {α : Type} :
    List (Except ThreadPoolError α) → Except ThreadPoolError (List α)
  | [] => .ok []
  | .ok v :: rest =>
    match get_results rest with
    | .ok vs => .ok (v :: vs)
    | .error e => .error e
  | .error e :: _ => .error e

/-- The driver's blocking collection loop (`for _ in 0..n { let r =
pool.recv_result().unwrap(); ... }`), applied to the stream of outcomes
the result channel will deliver: `unwrap` on a `Failure` outcome panics,
modelled as `none`; running out of outcomes (all workers gone —
`recv_result` returns `ReceiveError` — or blocking forever) is also a
failed collection.  On `n` successes it returns them in arrival order. -/
def driverCollect {α : Type} :
    List (Except ThreadPoolError α) → Nat → Option (List α)
  | _, 0 => some []
  | [], _ + 1 => none
  | .ok v :: rest, n + 1 => (driverCollect rest n).map (v :: ·)
  | .error _ :: _, _ + 1 => none

/-! ### Further helpers for the claims -/

/-- `merge_sort` with explicit fuel, structurally recursive on the fuel:
each recursive call spends one unit.  Used to state termination of the
source recursion: fuel equal to the slice length always suffices. -/
def merge_sort_fuel : Nat → List Int → List Int
  | 0, arr => arr
  | fuel + 1, arr =>
    if arr.length ≤ 1 then arr
    else
      merge (merge_sort_fuel fuel (arr.take (arr.length / 2)))
            (merge_sort_fuel fuel (arr.drop (arr.length / 2)))

/-- The sum of the chunk lengths — the quantity the spec's round invariant
tracks. -/
def totalLen (cs : List (List Int)) : Nat := (cs.map List.length).sum

/-- `totalLen` is the length of the concatenation of all chunks. -/
theorem totalLen_eq_length_flatten (cs : List (List Int)) :
    totalLen cs = cs.flatten.length := by
  rw [totalLen, List.length_flatten]

/-- `merge` consumes both inputs completely: the output length is the sum
of the input lengths. -/
theorem merge_length (l r : List Int) :
    (merge l r).length = l.length + r.length := by
  rw [(merge_perm l r).length_eq, List.length_append]

/-- `merge_sort` preserves length. -/
theorem merge_sort_length (arr : List Int) :
    (merge_sort arr).length = arr.length :=
  (merge_sort_perm arr).length_eq

/-- A non-empty list whose length is at most the chunk size forms a single
chunk. -/
theorem chunksOf_of_length_le (n : Nat) (l : List Int) (hl : l ≠ [])
    (hn : l.length ≤ n) : chunksOf n l = [l] := by
  match n, l with
  | n, [] => exact absurd rfl hl
  | 0, x :: xs => simp at hn
  | n + 1, x :: xs =>
    rw [chunksOf, List.take_of_length_le hn, List.drop_of_length_le hn, chunksOf_nil]

/-- Length-bounded fuel is enough: `merge_sort_fuel` computes `merge_sort`
whenever the fuel is at least the input length.  In particular the source
recursion terminates on every input, its depth bounded by the length. -/
theorem merge_sort_fuel_eq (fuel : Nat) (arr : List Int)
    (h : arr.length ≤ fuel) : merge_sort_fuel fuel arr = merge_sort arr := by
  match fuel with
  | 0 =>
    have : arr = [] := List.length_eq_zero.mp (by omega)
    subst this
    rw [merge_sort_fuel, merge_sort]
    simp
  | fuel + 1 =>
    rw [merge_sort_fuel]
    rw [merge_sort]
    split
    · rfl
    · rename_i hlen
      rw [merge_sort_fuel_eq fuel (arr.take (arr.length / 2)) (by simp; omega),
        merge_sort_fuel_eq fuel (arr.drop (arr.length / 2)) (by simp; omega)]

/-- The driver's merge loop always ends with exactly one chunk when it
starts with at least one (independently of chunk contents). -/
theorem mergeRounds_length_one (cs : List (List Int)) (h : cs ≠ []) :
    (mergeRounds cs).length = 1 := by
  rw [mergeRounds]
  split
  · rename_i hlen
    refine mergeRounds_length_one (mergeRound cs) ?_
    intro e
    have hl := mergeRound_length cs
    rw [e] at hl
    simp only [List.length_nil] at hl
    omega
  · rename_i hlen
    have h0 : cs.length ≠ 0 := by
      simpa [List.length_eq_zero] using h
    omega
termination_by cs.length
decreasing_by
  rw [mergeRound_length]
  omega


/-! ### The claims -/

/-- C1: for every input sequence (including empty and singleton), every
chunk size ≥ 1 and every worker count ≥ 1, `parallel_merge_sort` returns
(without panicking) a non-decreasing permutation of the input; in
particular `[5, 2, 9, 1, 5, 6]` with chunk size 2 and 2 workers yields
`[1, 2, 5, 5, 6, 9]`, `[]` yields `[]`, and `[42]` yields `[42]`. -/
theorem claim_C1 :
    (∀ (data : List Int) (c t : Nat), 1 ≤ c → 1 ≤ t →
      ∃ out, parallel_merge_sort data c t = some out
        ∧ out.Sorted (· ≤ ·) ∧ out.Perm data)
    ∧ parallel_merge_sort [5, 2, 9, 1, 5, 6] 2 2 = some [1, 2, 5, 5, 6, 9]
    ∧ (∀ c t : Nat, 1 ≤ c → 1 ≤ t → parallel_merge_sort [] c t = some [])
    ∧ (∀ c t : Nat, 1 ≤ c → 1 ≤ t → parallel_merge_sort [42] c t = some [42]) := by
  refine ⟨?_, ?_, ?_, ?_⟩
  · intro data c t hc ht
    exact parallel_merge_sort_spec data c t (by omega) (by omega)
  · simp [parallel_merge_sort, chunksOf, merge_sort, merge, mergeRounds, mergeRound,
      pairMerge]
  · intro c t hc ht
    unfold parallel_merge_sort
    rw [if_neg (by omega), if_neg (by omega), chunksOf_nil, List.map_nil, mergeRounds]
    simp
  · intro c t hc ht
    obtain ⟨out, h1, h2, h3⟩ := parallel_merge_sort_spec [42] c t (by omega) (by omega)
    rw [h1, List.perm_singleton.mp h3]

/-- Witness for C1: the universally quantified part applied at a concrete
input. -/
theorem claim_C1_witness :
    ∃ out, parallel_merge_sort [3, 1, 2] 2 1 = some out
      ∧ out.Sorted (· ≤ ·) ∧ out.Perm [3, 1, 2] :=
  claim_C1.1 [3, 1, 2] 2 1 (by decide) (by decide)

/-- C6: on sorted inputs `merge` is sorted, no longer than the sum of the
input lengths, a permutation of the concatenation (both inputs consumed
completely), and left-stable: it takes the left element whenever the
current left element is ≤ the current right element. -/
theorem claim_C6 :
    (∀ l r : List Int, l.Sorted (· ≤ ·) → r.Sorted (· ≤ ·) →
      (merge l r).Sorted (· ≤ ·))
    ∧ (∀ l r : List Int, (merge l r).length ≤ l.length + r.length)
    ∧ (∀ l r : List Int, (merge l r).Perm (l ++ r))
    ∧ (∀ (a b : Int) (l r : List Int), a ≤ b →
        merge (a :: l) (b :: r) = a :: merge l (b :: r)) := by
  refine ⟨merge_sorted, fun l r => le_of_eq (merge_length l r), merge_perm, ?_⟩
  intro a b l r hab
  simp only [merge]
  rw [if_pos hab]

/-- Witness for C6: applied at concrete sorted inputs. -/
theorem claim_C6_witness :
    (merge [1, 4] [2, 3]).Sorted (· ≤ ·)
    ∧ merge [(2 : Int)] [2, 5] = 2 :: merge [] [2, 5] :=
  ⟨claim_C6.1 [1, 4] [2, 3] (by decide) (by decide),
   claim_C6.2.2.2 2 2 [] [5] (by decide)⟩

/-- C7 counterexample: the claim quantifies over *every* chunk size ≥ the
input length, which for the empty input includes chunk size 0 — but
`slice::chunks(0)` panics unconditionally in Rust (modelled as `none`),
so the parallel sort does not produce the sequential sort's output
there. -/
theorem claim_C7_counterexample :
    ¬ parallel_merge_sort [] 0 1 = some (merge_sort []) := by
  simp [parallel_merge_sort]

/-- C7 (amended): for every input sequence, every chunk size that is ≥ 1
and ≥ the input length, and every worker count ≥ 1, the parallel sort
returns exactly the sequential `merge_sort` of the whole input. -/
theorem claim_C7 (data : List Int) (c t : Nat) (hc : 1 ≤ c)
    (hlen : data.length ≤ c) (ht : 1 ≤ t) :
    parallel_merge_sort data c t = some (merge_sort data) := by
  unfold parallel_merge_sort
  rw [if_neg (by omega), if_neg (by omega)]
  by_cases hd : data = []
  · subst hd
    rw [chunksOf_nil, List.map_nil, mergeRounds, merge_sort]
    simp
  · rw [chunksOf_of_length_le c data hd hlen, List.map_cons, List.map_nil,
      mergeRounds]
    simp

/-- Witness for C7: a two-element input sorted in one chunk. -/
theorem claim_C7_witness :
    parallel_merge_sort [9, 4] 2 1 = some (merge_sort [9, 4]) :=
  claim_C7 [9, 4] 2 1 (by decide) (by decide) (by decide)

/-- C8: each merge round preserves the total element count; for the round
the driver starts from, that count equals the original input length; the
chunk count strictly decreases each round, reaching exactly one; and an
odd round carries exactly its last chunk over unchanged while the
remaining chunks are merged pairwise (their count halves exactly). -/
theorem claim_C8 :
    (∀ cs : List (List Int), totalLen (mergeRound cs) = totalLen cs)
    ∧ (∀ (data : List Int) (c : Nat), 1 ≤ c →
        totalLen ((chunksOf c data).map merge_sort) = data.length)
    ∧ (∀ cs : List (List Int), 1 < cs.length →
        (mergeRound cs).length < cs.length)
    ∧ (∀ cs : List (List Int), cs ≠ [] → (mergeRounds cs).length = 1)
    ∧ (∀ cs : List (List Int), cs.length % 2 = 1 →
        mergeRound cs = cs.getLastD [] :: pairMerge cs.dropLast
          ∧ (pairMerge cs.dropLast).length = (cs.length - 1) / 2) := by
  refine ⟨?_, ?_, ?_, mergeRounds_length_one, ?_⟩
  · intro cs
    rw [totalLen_eq_length_flatten, totalLen_eq_length_flatten]
    exact (mergeRound_flatten_perm cs).length_eq
  · intro data c hc
    rw [totalLen_eq_length_flatten,
      (chunks_map_sort_flatten_perm (chunksOf c data)).length_eq,
      chunksOf_join c (by omega) data]
  · intro cs hlen
    rw [mergeRound_length]
    omega
  · intro cs hodd
    constructor
    · rw [mergeRound, if_neg (by omega)]
    · rw [pairMerge_length, List.length_dropLast]

/-- Witness for C8: the invariants at a concrete three-chunk round. -/
theorem claim_C8_witness :
    totalLen ((chunksOf 2 [5, 2, 9, 1, 5]).map merge_sort) =
      ([5, 2, 9, 1, 5] : List Int).length
    ∧ (mergeRound [[1], [2], [3]]).length < ([[1], [2], [3]] : List (List Int)).length
    ∧ (mergeRounds [[1], [2], [3]]).length = 1
    ∧ (mergeRound [[1], [2], [3]] =
        ([[1], [2], [3]] : List (List Int)).getLastD []
          :: pairMerge ([[1], [2], [3]] : List (List Int)).dropLast
        ∧ (pairMerge ([[1], [2], [3]] : List (List Int)).dropLast).length =
            (([[1], [2], [3]] : List (List Int)).length - 1) / 2) :=
  ⟨claim_C8.2.1 [5, 2, 9, 1, 5] 2 (by decide),
   claim_C8.2.2.1 [[1], [2], [3]] (by decide),
   claim_C8.2.2.2.1 [[1], [2], [3]] (by decide),
   claim_C8.2.2.2.2 [[1], [2], [3]] (by decide)⟩

/-- C2 counterexample: the claim's default string for non-string panic
payloads is `"unknown panic"`, but the worker's conversion produces the
literal `"Unknown panic"` (capital U, `thread_pool.rs`). -/
theorem claim_C2_counterexample :
    ¬ panic_info PanicPayload.other = "unknown panic" := by
  decide

/-- C2 (amended, `"Unknown panic"` in place of `"unknown panic"`): a panic
payload is converted to the string itself for a `&str`, a clone for a
`String`, and the default `"Unknown panic"` otherwise; the worker delivers
exactly one `ThreadPanic(message)` failure outcome for the panicking job,
its loop is not terminated by the panic (one outcome per dequeued job),
and every other job's outcome is unaffected — a job returning `v` still
yields `Success v`. -/
theorem claim_C2 :
    (∀ s : String, panic_info (PanicPayload.strRef s) = s)
    ∧ (∀ s : String, panic_info (PanicPayload.strOwned s) = s)
    ∧ panic_info PanicPayload.other = "Unknown panic"
    ∧ (∀ p : PanicPayload, runJob (JobRun.panicked (α := Int) p)
        = .error (.ThreadPanic (panic_info p)))
    ∧ (∀ jobs : List (JobRun Int), (workerRun jobs).length = jobs.length)
    ∧ (∀ (jobs : List (JobRun Int)) (i : Nat),
        (workerRun jobs)[i]? = (jobs[i]?).map runJob)
    ∧ (∀ (jobs : List (JobRun Int)) (i : Nat) (v : Int),
        jobs[i]? = some (JobRun.ok v) →
        (workerRun jobs)[i]? = some (Except.ok v)) := by
  refine ⟨fun s => rfl, fun s => rfl, rfl, fun p => rfl, ?_, ?_, ?_⟩
  · intro jobs
    rw [workerRun, List.length_map]
  · intro jobs i
    rw [workerRun, List.getElem?_map]
  · intro jobs i v h
    rw [workerRun, List.getElem?_map, h]
    rfl

/-- Witness for C2: a panicking job between two ordinary jobs yields
exactly `[Success 1, ThreadPanic "boom", Success 7]`. -/
theorem claim_C2_witness :
    (workerRun [JobRun.ok 1, JobRun.panicked (α := Int) (PanicPayload.strRef "boom"),
      JobRun.ok 7]).length = 3
    ∧ (workerRun [JobRun.ok 1, JobRun.panicked (α := Int) (PanicPayload.strRef "boom"),
        JobRun.ok 7])[2]? = some (Except.ok 7) :=
  ⟨claim_C2.2.2.2.2.1 [JobRun.ok 1, JobRun.panicked (PanicPayload.strRef "boom"),
      JobRun.ok 7],
   claim_C2.2.2.2.2.2.2 [JobRun.ok 1, JobRun.panicked (PanicPayload.strRef "boom"),
      JobRun.ok 7] 2 7 rfl⟩

/-- C3: constructing the pool with 0 threads fails with `ZeroThreads`
(before anything is spawned — the model's rejected constructor carries no
thread handles at all); with `n ≥ 1` it succeeds with exactly `n` spawned
workers. -/
theorem claim_C3 :
    ThreadPool.new Int 0 = .error .ZeroThreads
    ∧ (∀ n : Nat, 1 ≤ n → ∃ p : ThreadPool Int,
        ThreadPool.new Int n = .ok p ∧ p.threads.length = n) := by
  refine ⟨rfl, ?_⟩
  intro n hn
  refine ⟨⟨some (), true, [], [], List.range n⟩, ?_, by simp⟩
  rw [ThreadPool.new, if_neg (by omega)]

/-- Witness for C3: a pool of three workers. -/
theorem claim_C3_witness :
    ∃ p : ThreadPool Int, ThreadPool.new Int 3 = .ok p ∧ p.threads.length = 3 :=
  claim_C3.2 3 (by decide)

/-- C4: `execute` on a pool whose task-queue sending half is gone — the
`job_sender` field already `None`, or the workers' receiving half dropped —
returns the `SendError` value; on a live pool it returns `Ok` and appends
exactly one job to the task queue. -/
theorem claim_C4 :
    (∀ (p : ThreadPool Int) (f : JobRun Int), p.job_sender = none →
      p.execute f = .error .SendError)
    ∧ (∀ (p : ThreadPool Int) (f : JobRun Int), p.receiver_connected = false →
      p.execute f = .error .SendError)
    ∧ (∀ (p : ThreadPool Int) (f : JobRun Int), p.job_sender = some () →
      p.receiver_connected = true →
      p.execute f = .ok { p with job_queue := p.job_queue ++ [f] }) := by
  refine ⟨?_, ?_, ?_⟩
  · intro p f h
    rw [ThreadPool.execute, h]
  · intro p f h
    rw [ThreadPool.execute]
    cases hs : p.job_sender with
    | none => rfl
    | some u => rw [if_neg (by rw [h]; exact Bool.false_ne_true)]
  · intro p f h1 h2
    rw [ThreadPool.execute, h1, if_pos h2]

/-- Witness for C4: submitting to a shut-down pool fails, submitting to a
live pool enqueues the job. -/
theorem claim_C4_witness :
    ThreadPool.execute ⟨none, true, [], [], [0]⟩ (JobRun.ok (1 : Int))
      = .error .SendError
    ∧ ThreadPool.execute ⟨some (), true, [], [], [0]⟩ (JobRun.ok (1 : Int))
      = .ok ⟨some (), true, [JobRun.ok 1], [], [0]⟩ :=
  ⟨claim_C4.1 ⟨none, true, [], [], [0]⟩ (JobRun.ok 1) rfl,
   claim_C4.2.2 ⟨some (), true, [], [], [0]⟩ (JobRun.ok 1) rfl rfl⟩

/-- C5: the non-blocking drain returns every buffered outcome in arrival
order when all are successes; when the buffer holds a failure, the first
failure is returned itself, the successes drained before it are discarded
and everything after it stays in the buffer. -/
theorem claim_C5 :
    (∀ vs : List Int, get_results (vs.map Except.ok) = .ok vs)
    ∧ (∀ (pre post : List (Except ThreadPoolError Int)) (e : ThreadPoolError),
        (∀ r ∈ pre, ∃ v, r = .ok v) →
        get_results (pre ++ .error e :: post) = .error e) := by
  constructor
  · intro vs
    induction vs with
    | nil => rfl
    | cons v t ih => rw [List.map_cons, get_results, ih]
  · intro pre post e hpre
    induction pre with
    | nil => rw [List.nil_append, get_results]
    | cons r t ih =>
      obtain ⟨v, rfl⟩ := hpre r (by simp)
      rw [List.cons_append, get_results, ih (fun x hx => hpre x (by simp [hx]))]

/-- Witness for C5: a buffered failure wins over surrounding successes;
an all-success buffer drains completely in order. -/
theorem claim_C5_witness :
    get_results [Except.ok (1 : Int), Except.error (ThreadPoolError.ThreadPanic "x"),
      Except.ok 2] = .error (ThreadPoolError.ThreadPanic "x")
    ∧ get_results ([3, 4].map Except.ok) = .ok [(3 : Int), 4] :=
  ⟨claim_C5.2 [Except.ok 1] [Except.ok 2] (ThreadPoolError.ThreadPanic "x")
      (fun _r hr => ⟨1, List.mem_singleton.mp hr⟩),
   claim_C5.1 [3, 4]⟩

/-- C9 counterexample: the driver's collection loops call
`pool.recv_result().unwrap()`, so a `Failure` outcome makes the driver
panic — `none` in the model — instead of returning the error as a value;
the claim "surfaces the error to its caller as a value rather than …
terminating the process with an uncaught fault" is false at this input
(one expected result whose outcome is `ThreadPanic "boom"`). -/
theorem claim_C9_counterexample :
    driverCollect [Except.error (ThreadPoolError.ThreadPanic "boom")] 1
      = (none : Option (List (List Int))) := rfl

/-- C9 (amended): pool-level failures are represented as values — a
panicking job is delivered as a `ThreadPanic` failure outcome and a
submission on a closed queue returns `SendError` — and the driver stops at
the first `Failure` outcome of a sort or merge round without consuming
further outcomes; but it aborts with an uncaught fault (`unwrap` panic)
rather than returning the error as a value to its caller. -/
theorem claim_C9 :
    (∀ p : PanicPayload, runJob (JobRun.panicked (α := List Int) p)
        = .error (.ThreadPanic (panic_info p)))
    ∧ (∀ (p : ThreadPool (List Int)) (f : JobRun (List Int)),
        p.job_sender = none → p.execute f = .error .SendError)
    ∧ (∀ (rest : List (Except ThreadPoolError (List Int))) (n : Nat)
        (e : ThreadPoolError), driverCollect (.error e :: rest) (n + 1) = none)
    ∧ (∀ (rest : List (Except ThreadPoolError (List Int))) (n : Nat)
        (v : List Int), driverCollect (.ok v :: rest) (n + 1)
          = (driverCollect rest n).map (v :: ·)) := by
  refine ⟨fun p => rfl, ?_, fun rest n e => rfl, fun rest n v => rfl⟩
  intro p f h
  rw [ThreadPool.execute, h]

/-- Witness for C9: submitting after shutdown fails as a value. -/
theorem claim_C9_witness :
    ThreadPool.execute ⟨none, true, [], [], [0]⟩ (JobRun.ok ([] : List Int))
      = .error .SendError :=
  claim_C9.2.1 ⟨none, true, [], [], [0]⟩ (JobRun.ok []) rfl

/-- C10: `merge_sort` terminates on every input: length ≤ 1 returns
immediately; for length ≥ 2 both recursive sub-slices are non-empty and
strictly shorter than the whole (the recursion is well-founded on slice
length); and fuel equal to the slice length always suffices to run the
recursion to completion. -/
theorem claim_C10 :
    (∀ arr : List Int, arr.length ≤ 1 → merge_sort arr = arr)
    ∧ (∀ arr : List Int, 2 ≤ arr.length →
        (arr.take (arr.length / 2)).length < arr.length
        ∧ (arr.drop (arr.length / 2)).length < arr.length
        ∧ arr.take (arr.length / 2) ≠ []
        ∧ arr.drop (arr.length / 2) ≠ [])
    ∧ (∀ arr : List Int, merge_sort_fuel arr.length arr = merge_sort arr) := by
  refine ⟨?_, ?_, fun arr => merge_sort_fuel_eq arr.length arr le_rfl⟩
  · intro arr h
    rw [merge_sort, if_pos h]
  · intro arr h
    refine ⟨by simp; omega, by simp; omega, ?_, ?_⟩
    · rw [← List.length_pos]
      simp
      omega
    · rw [← List.length_pos]
      simp
      omega

/-- Witness for C10: the base case at `[5]` and the measure facts at
`[1, 2]`. -/
theorem claim_C10_witness :
    merge_sort [(5 : Int)] = [(5 : Int)]
    ∧ (([1, 2] : List Int).take (([1, 2] : List Int).length / 2)).length
        < ([1, 2] : List Int).length
      ∧ (([1, 2] : List Int).drop (([1, 2] : List Int).length / 2)).length
        < ([1, 2] : List Int).length
      ∧ ([1, 2] : List Int).take (([1, 2] : List Int).length / 2) ≠ []
      ∧ ([1, 2] : List Int).drop (([1, 2] : List Int).length / 2) ≠ [] :=
  ⟨claim_C10.1 [5] (by decide), claim_C10.2.1 [1, 2] (by decide)⟩

end Concurrency
